import Mathlib

/-!
Shallow embedding of the tmux-shortcuts program (src/main.go) together with
proofs about its column-packing layout algorithm, word wrapping and the
surrounding display pipeline.

Modelling notes:
* Strings are modelled by Lean `String` / `List Char`; `len` in Go counts
  bytes, Lean `String.length` counts characters.  Every string whose length
  feeds a decision in the program (shortcut keys, descriptions, category
  names, the empty string) is ASCII, where the two notions coincide; the only
  non-ASCII text is the horizontal-rule character of a header, whose length is
  never consulted by the algorithm (only line *counts* drive the packer).
* Whitespace is the ASCII core of Go's `unicode.IsSpace`; all data in the
  program is ASCII.
* Go `int` values that appear (widths, counts, indices) are all non-negative
  on every reachable path, so they are modelled by `Nat`.
* The terminal-size query (an external process call) is modelled by passing
  the resulting width as an explicit parameter.
-/

set_option maxHeartbeats 1000000

namespace TmuxShortcuts

/-- Characters treated as whitespace (the ASCII core of Go `unicode.IsSpace`):
tab (9), newline (10), vertical tab (11), form feed (12), carriage return
(13) and space (32). -/
def isSpaceChar (c : Char) : Bool :=
  c.toNat = 32 || (9 ≤ c.toNat && c.toNat ≤ 13)

/-- Model of Go `strings.TrimSpace`: drop leading and trailing whitespace. -/
def trimSpace (l : List Char) : List Char :=
  ((l.dropWhile isSpaceChar).reverse.dropWhile isSpaceChar).reverse

/-- Accumulator-based model of Go `strings.Fields`: split into maximal runs
of non-whitespace characters.  `acc` holds the (reversed) current word. -/
def fieldsAux : List Char → List Char → List String
  | [], acc => if acc = [] then [] else [String.mk acc.reverse]
  | c :: rest, acc =>
    if isSpaceChar c then
      if acc = [] then fieldsAux rest []
      else String.mk acc.reverse :: fieldsAux rest []
    else fieldsAux rest (c :: acc)

/-- Model of Go `strings.Fields`. -/
def fields (l : List Char) : List String := fieldsAux l []

/-- A run of `n` space characters (Go `strings.Repeat(" ", n)`). -/
def spaces (n : Nat) : String := String.mk (List.replicate n ' ')

/-- Model of `center` (src/main.go lines 86-93): pad `s` with spaces so it is
centred in `width`, extra space going to the right; strings at least `width`
long are returned unchanged. -/
def center (s : String) (width : Nat) : String :=
  if width ≤ s.length then s
  else
    spaces ((width - s.length) / 2) ++ s ++
      spaces (width - s.length - (width - s.length) / 2)

/-- Model of `formatCell` (src/main.go lines 96-98, fmt verb `%-*s`):
left-justify `s` in a field of `width` characters; longer strings are not
truncated. -/
def formatCell (s : String) (width : Nat) : String :=
  s ++ spaces (width - s.length)

/-- One iteration of the `wordWrap` loop body (src/main.go lines 108-118):
flush the current line when the next word (plus one space) would overflow,
then start or extend the current line with the word. -/
def wordWrapStep (lineWidth : Nat) (acc : List String × String) (word : String) :
    List String × String :=
  let acc1 := if lineWidth < acc.2.length + word.length + 1 then (acc.1 ++ [acc.2], "") else acc
  if acc1.2 = "" then (acc1.1, word) else (acc1.1, acc1.2 ++ " " ++ word)

/-- Model of `wordWrap` (src/main.go lines 101-121). -/
def wordWrap (text : String) (lineWidth : Nat) : List String :=
  match fields (trimSpace text.data) with
  | [] => []
  | w :: ws =>
    let r := (w :: ws).foldl (wordWrapStep lineWidth) ([], "")
    r.1 ++ [r.2]

/-- Reference greedy wrapper, written from the spec's words (spec section 4.1):
each output line is a maximal run of consecutive words joined by single
spaces whose joined length does not exceed `lineWidth`; a word that does not
fit ends the current line and starts the next one, so a single word longer
than `lineWidth` stands alone on its own line.  `cur` is the line being
assembled. -/
def greedyAux (lineWidth : Nat) : List String → String → List String
  | [], cur => [cur]
  | w :: ws, cur =>
    if cur.length + 1 + w.length ≤ lineWidth then greedyAux lineWidth ws (cur ++ " " ++ w)
    else cur :: greedyAux lineWidth ws w

/-- Reference greedy word wrap over an already-split word list (from the
spec's words, to be compared with `wordWrap`). -/
def greedyWrapSpec (lineWidth : Nat) : List String → List String
  | [] => []
  | w :: ws => greedyAux lineWidth ws w

/-- A single tmux shortcut (src/main.go lines 12-16). -/
structure Shortcut where
  Key : String
  Description : String
  Category : String
deriving DecidableEq, Repr, Inhabited

/-- The hardcoded shortcut dataset (src/main.go lines 19-65). -/
def getStaticShortcuts : List Shortcut :=
  [⟨"Prefix d", "Detach from session", "Sessions"⟩,
   ⟨"Prefix s", "List sessions", "Sessions"⟩,
   ⟨"Prefix $", "Rename session", "Sessions"⟩,
   ⟨"Prefix c", "Create new window", "Windows"⟩,
   ⟨"Prefix ,", "Rename window", "Windows"⟩,
   ⟨"Prefix w", "List windows", "Windows"⟩,
   ⟨"Prefix f", "Find window", "Windows"⟩,
   ⟨"Prefix &", "Kill window", "Windows"⟩,
   ⟨"Prefix .", "Move window", "Windows"⟩,
   ⟨"Prefix p", "Previous window", "Windows"⟩,
   ⟨"Prefix n", "Next window", "Windows"⟩,
   ⟨"Prefix 0-9", "Select window by number", "Windows"⟩,
   ⟨"Prefix l", "Last selected window", "Windows"⟩,
   ⟨"Prefix %", "Split horizontally", "Pane Splitting & Nav"⟩,
   ⟨"Prefix \"", "Split vertically", "Pane Splitting & Nav"⟩,
   ⟨"Prefix o", "Next pane", "Pane Splitting & Nav"⟩,
   ⟨"Prefix ;", "Last pane", "Pane Splitting & Nav"⟩,
   ⟨"Prefix Arrow", "Navigate panes", "Pane Splitting & Nav"⟩,
   ⟨"Prefix x", "Kill pane", "Pane Management"⟩,
   ⟨"Prefix \x7b", "Move pane left", "Pane Management"⟩,
   ⟨"Prefix \x7d", "Move pane right", "Pane Management"⟩,
   ⟨"Prefix Space", "Next layout", "Pane Management"⟩,
   ⟨"Prefix z", "Toggle zoom pane", "Pane Management"⟩,
   ⟨"Prefix !", "Break pane to new window", "Pane Management"⟩,
   ⟨"Prefix q", "Show pane numbers", "Pane Management"⟩,
   ⟨"Prefix [", "Enter copy mode", "Copy Mode"⟩,
   ⟨"v", "Start selection (vi)", "Copy Mode"⟩,
   ⟨"y", "Copy selection (vi)", "Copy Mode"⟩,
   ⟨"Prefix ]", "Paste buffer", "Copy Mode"⟩,
   ⟨"Prefix t", "Show clock", "Misc"⟩,
   ⟨"Prefix :", "Enter command prompt", "Misc"⟩,
   ⟨"Prefix ?", "List all shortcuts", "Misc"⟩]

/-- Model of Go `strings.Replace(s, pat, rep, -1)` on character lists:
replace every non-overlapping occurrence of `pat` by `rep`, scanning left to
right.  (The program only calls it with the non-empty pattern "Prefix"; the
empty-pattern behaviour of Go, inserting between characters, is unused and
modelled as the identity.) -/
def replaceAllFuel (pat rep : List Char) : Nat → List Char → List Char
  | 0, l => l
  | _ + 1, [] => []
  | fuel + 1, c :: rest =>
    if pat ≠ [] ∧ pat.isPrefixOf (c :: rest) then
      rep ++ replaceAllFuel pat rep fuel ((c :: rest).drop pat.length)
    else
      c :: replaceAllFuel pat rep fuel rest

/-- `replaceAll pat rep s` replaces every occurrence of `pat` in `s`.  The
fuel `s.length` always suffices: each recursive call consumes at least one
character (the pattern, when it matches, is non-empty). -/
def replaceAll (pat rep s : List Char) : List Char :=
  replaceAllFuel pat rep s.length s

/-- String wrapper for `replaceAll`. -/
def stringReplaceAll (s pat rep : String) : String :=
  String.mk (replaceAll pat.data rep.data s.data)

/-- The shortcut list as transformed by `main` (src/main.go lines 225-228):
every occurrence of "Prefix" in each `Key` replaced by "ctrl+b". -/
def mainShortcuts : List Shortcut :=
  getStaticShortcuts.map fun s => { s with Key := stringReplaceAll s.Key "Prefix" "ctrl+b" }

/-- Atomic layout unit (src/main.go lines 142-146). -/
structure Block where
  lines : List String
  isHeader : Bool
  categoryId : Nat
deriving DecidableEq, Repr

/-- Fixed display order of the categories (src/main.go line 130). -/
def orderedCategories : List String :=
  ["Sessions", "Windows", "Pane Splitting & Nav", "Pane Management", "Misc", "Copy Mode"]

def columnWidth : Nat := 25
def columnSpacing : Nat := 2
def fullColumnWidth : Nat := columnWidth + columnSpacing

/-- Number of display columns derived from the terminal width
(src/main.go lines 136-139). -/
def numDisplayColumns (terminalWidth : Nat) : Nat :=
  let n := terminalWidth / fullColumnWidth
  if n = 0 then 1 else n

/-- The Go map `categorized` looked up at one category name: the shortcuts of
that category in dataset order (src/main.go lines 125-128). -/
def categorized (shortcuts : List Shortcut) (cat : String) : List Shortcut :=
  shortcuts.filter fun s => s.Category = cat

/-- Header block of category number `i` named `catName`
(src/main.go lines 152-158). -/
def categoryHeaderBlock (i : Nat) (catName : String) : Block :=
  Block.mk
    ((if 0 < i then [""] else []) ++
      [center catName columnWidth, String.mk (List.replicate columnWidth '─'), ""])
    true i

/-- The pre-rendered lines of one shortcut entry (src/main.go lines 163-169):
key line, word-wrapped description lines, trailing blank line. -/
def shortcutBlock (s : Shortcut) : List String :=
  formatCell (" " ++ s.Key) columnWidth ::
    ((wordWrap s.Description (columnWidth - 2)).map fun line =>
      formatCell ("  " ++ line) columnWidth) ++ [""]

/-- All blocks contributed by category number `i` named `catName`
(src/main.go lines 151-172). -/
def categoryBlocks (shortcuts : List Shortcut) (i : Nat) (catName : String) : List Block :=
  categoryHeaderBlock i catName ::
    (categorized shortcuts catName).map fun s => Block.mk (shortcutBlock s) false i

/-- The full ordered block sequence (src/main.go lines 149-173). -/
def allBlocks (shortcuts : List Shortcut) : List Block :=
  (orderedCategories.enum.map fun p => categoryBlocks shortcuts p.1 p.2).flatten

/-- Total number of lines across a block sequence (the `totalLines`
accumulator of src/main.go lines 150-171). -/
def sumLines (bs : List Block) : Nat := (bs.map fun b => b.lines.length).sum

/-- Target column height (src/main.go line 180): `ceil(totalLines / N)`. -/
def columnHeight (totalLines numCols : Nat) : Nat :=
  (totalLines + numCols - 1) / numCols

/-- `minSpaceNeeded` for a block given the remaining blocks after it
(src/main.go lines 186-191): a header immediately followed by a block of the
same category also reserves that block's lines. -/
def minSpaceNeeded (blk : Block) (rest : List Block) : Nat :=
  blk.lines.length +
    match rest with
    | next :: _ => if blk.isHeader ∧ next.categoryId = blk.categoryId then next.lines.length else 0
    | [] => 0

/-- Whether Go `strings.TrimSpace(s) == ""` holds, i.e. `s` is whitespace. -/
def isBlankLine (s : String) : Bool := trimSpace s.data = []

/-- Dropping of a leading blank line when a block starts a fresh column
(src/main.go lines 199-202). -/
def trimLead (ls : List String) : List String :=
  match ls with
  | [] => []
  | l0 :: rest => if isBlankLine l0 then rest else l0 :: rest

/-- The block-distribution loop (src/main.go lines 181-207): walk the blocks,
appending each whole block to the current column, advancing to the next
column when the current one is non-empty and `minSpaceNeeded` more lines
would exceed the target height, and stopping (dropping the remaining blocks)
once the columns are exhausted. -/
def packLoop (targetHeight : Nat) : List Block → List (List String) → Nat → List (List String)
  | [], cols, _ => cols
  | blk :: rest, cols, currentCol =>
    if 0 < (cols.getD currentCol []).length ∧
        targetHeight < (cols.getD currentCol []).length + minSpaceNeeded blk rest then
      if cols.length ≤ currentCol + 1 then cols
      else
        packLoop targetHeight rest
          (cols.set (currentCol + 1) ((cols.getD (currentCol + 1) []) ++ trimLead blk.lines))
          (currentCol + 1)
    else
      packLoop targetHeight rest
        (cols.set currentCol ((cols.getD currentCol []) ++ blk.lines)) currentCol

/-- Packing from the initial state: `N` freshly allocated empty columns,
current column 0 (src/main.go lines 179-181). -/
def packColumns (targetHeight numCols : Nat) (blocks : List Block) : List (List String) :=
  packLoop targetHeight blocks (List.replicate numCols []) 0

/-- Concatenation of a list of strings. -/
def concatStrings : List String → String
  | [] => ""
  | s :: rest => s ++ concatStrings rest

/-- One rendered output row (src/main.go lines 211-219): for each column the
line at this row (empty if the column is shorter) padded to the column width,
followed by the inter-column spacing; the row ends with a newline. -/
def renderRow (cols : List (List String)) (numCols row : Nat) : String :=
  concatStrings ((List.range numCols).map fun col =>
    formatCell ((cols.getD col []).getD row "") columnWidth ++ spaces columnSpacing) ++ "\n"

/-- The renderer loop (src/main.go lines 210-220): emit rows `row`,
`row + 1`, ... while below the column height. -/
def renderLoop (cols : List (List String)) (numCols targetHeight row : Nat) : String :=
  if row < targetHeight then
    renderRow cols numCols row ++ renderLoop cols numCols targetHeight (row + 1)
  else ""
termination_by targetHeight - row
decreasing_by omega

/-- Model of `displayShortcutsInColumns` (src/main.go lines 124-221) as a
function from the dataset and the detected terminal width to the text written
to standard output. -/
def displayShortcutsInColumns (shortcuts : List Shortcut) (terminalWidth : Nat) : String :=
  let numCols := numDisplayColumns terminalWidth
  let blocks := allBlocks shortcuts
  let total := sumLines blocks
  if total = 0 then ""
  else
    let h := columnHeight total numCols
    renderLoop (packColumns h numCols blocks) numCols h 0

/-- Lines of a group of blocks, concatenated. -/
def blockJoin (g : List Block) : List String := (g.map Block.lines).flatten

/-- Lines of a group of blocks that starts a fresh column: the first block
loses a leading blank line. -/
def trimmedJoin (g : List Block) : List String :=
  match g with
  | [] => []
  | b :: bs => trimLead b.lines ++ blockJoin bs

/-! ### Basic helper lemmas -/

theorem string_mk_ne_empty (l : List Char) (h : l ≠ []) : String.mk l ≠ "" := by
  intro he
  apply h
  have he' : String.mk l = String.mk [] := he
  injection he'

theorem length_empty_string : ("" : String).length = 0 := rfl

theorem length_single_space : (" " : String).length = 1 := rfl

/-- Every word produced by `fieldsAux` is non-empty. -/
theorem fieldsAux_ne_empty :
    ∀ (l acc : List Char) (w : String), w ∈ fieldsAux l acc → w ≠ "" := by
  intro l
  induction l with
  | nil =>
    intro acc w hw
    unfold fieldsAux at hw
    by_cases hacc : acc = []
    · simp [hacc] at hw
    · rw [if_neg hacc] at hw
      simp at hw
      subst hw
      exact string_mk_ne_empty _ (by simpa using hacc)
  | cons c rest ih =>
    intro acc w hw
    unfold fieldsAux at hw
    by_cases hsp : isSpaceChar c
    · rw [if_pos hsp] at hw
      by_cases hacc : acc = []
      · rw [if_pos hacc] at hw
        exact ih [] w hw
      · rw [if_neg hacc] at hw
        rcases List.mem_cons.mp hw with hw | hw
        · subst hw
          exact string_mk_ne_empty _ (by simpa using hacc)
        · exact ih [] w hw
    · rw [if_neg hsp] at hw
      exact ih (c :: acc) w hw

/-- Every word produced by `fields` is non-empty. -/
theorem fields_ne_empty (l : List Char) (w : String) (hw : w ∈ fields l) : w ≠ "" :=
  fieldsAux_ne_empty l [] w hw

/-- A whitespace-only character list trims to nothing. -/
theorem trimSpace_all_space (l : List Char) (h : ∀ c ∈ l, isSpaceChar c = true) :
    trimSpace l = [] := by
  unfold trimSpace
  have h1 : l.dropWhile isSpaceChar = [] := List.dropWhile_eq_nil_iff.mpr h
  rw [h1]
  simp

/-! ### `wordWrap` versus the greedy reference (claims C4, C7) -/

/-- The `wordWrap` loop, started on a non-empty current line over non-empty
words, produces exactly the greedy reference lines. -/
theorem wordWrap_loop_greedy (L : Nat) (ws : List String) :
    ∀ (lines : List String) (cur : String), cur ≠ "" → (∀ w ∈ ws, w ≠ "") →
      (ws.foldl (wordWrapStep L) (lines, cur)).1 ++ [(ws.foldl (wordWrapStep L) (lines, cur)).2] =
        lines ++ greedyAux L ws cur := by
  induction ws with
  | nil =>
    intro lines cur _ _
    simp [greedyAux]
  | cons w rest ih =>
    intro lines cur hcur hw
    have hw' : ∀ x ∈ rest, x ≠ "" := fun x hx => hw x (List.mem_cons_of_mem _ hx)
    have hwne : w ≠ "" := hw w (List.mem_cons_self _ _)
    rw [List.foldl_cons]
    by_cases hc : L < cur.length + w.length + 1
    · have hstep : wordWrapStep L (lines, cur) w = (lines ++ [cur], w) := by
        simp [wordWrapStep, hc]
      rw [hstep, ih _ _ hwne hw']
      rw [show greedyAux L (w :: rest) cur =
            if cur.length + 1 + w.length ≤ L then greedyAux L rest (cur ++ " " ++ w)
            else cur :: greedyAux L rest w from rfl]
      rw [if_neg (by omega)]
      simp
    · have hstep : wordWrapStep L (lines, cur) w = (lines, cur ++ " " ++ w) := by
        simp [wordWrapStep, hc, hcur]
      have hne2 : cur ++ " " ++ w ≠ "" := by
        intro he
        have : (cur ++ " " ++ w).length = 0 := by rw [he, length_empty_string]
        rw [String.length_append, String.length_append, length_single_space] at this
        omega
      rw [hstep, ih _ _ hne2 hw']
      rw [show greedyAux L (w :: rest) cur =
            if cur.length + 1 + w.length ≤ L then greedyAux L rest (cur ++ " " ++ w)
            else cur :: greedyAux L rest w from rfl]
      rw [if_pos (by omega)]

/-- Claim C4, counterexample: at text `"ab"` and positive line width 2 the
code's `wordWrap` emits a leading empty line, so it differs from the greedy
reference and produces an empty output line for non-empty input. -/
theorem wordWrap_not_greedy_cex :
    wordWrap "ab" 2 = ["", "ab"] ∧
      fields (trimSpace "ab".data) = ["ab"] ∧
      greedyWrapSpec 2 ["ab"] = ["ab"] ∧
      wordWrap "ab" 2 ≠ greedyWrapSpec 2 (fields (trimSpace "ab".data)) := by
  refine ⟨by decide, by decide, by decide, by decide⟩

/-- Claim C4, amended: `wordWrap` agrees with the greedy reference except
that, when the first word's length is at least `lineWidth` (so it does not
fit on a line together with a separating space), an extra empty line is
emitted before the greedy output; empty or whitespace-only input still
yields the empty sequence. -/
theorem wordWrap_eq_greedy_amended (text : String) (L : Nat) :
    (wordWrap text L =
      match fields (trimSpace text.data) with
      | [] => []
      | w :: ws =>
        if L < w.length + 1 then "" :: greedyWrapSpec L (w :: ws)
        else greedyWrapSpec L (w :: ws)) ∧
    ((∀ c ∈ text.data, isSpaceChar c = true) → wordWrap text L = []) := by
  constructor
  · rcases hf : fields (trimSpace text.data) with _ | ⟨w, ws⟩
    · rw [wordWrap, hf]
    · have hwne : w ≠ "" := fields_ne_empty _ w (by rw [hf]; exact List.mem_cons_self _ _)
      have hws : ∀ x ∈ ws, x ≠ "" :=
        fun x hx => fields_ne_empty _ x (by rw [hf]; exact List.mem_cons_of_mem _ hx)
      rw [wordWrap, hf]
      simp only [List.foldl_cons]
      by_cases h0 : L < w.length + 1
      · have hstep : wordWrapStep L ([], "") w = ([""], w) := by
          simp [wordWrapStep, length_empty_string, h0]
        rw [hstep, wordWrap_loop_greedy L ws [""] w hwne hws]
        rw [if_pos h0]
        rfl
      · have hstep : wordWrapStep L ([], "") w = ([], w) := by
          simp [wordWrapStep, length_empty_string, h0]
        rw [hstep, wordWrap_loop_greedy L ws [] w hwne hws]
        rw [if_neg h0]
        rfl
  · intro hsp
    rw [wordWrap, trimSpace_all_space text.data hsp]
    rfl

/-- Claim C4, amended, witness: whitespace-only input yields no lines. -/
theorem wordWrap_eq_greedy_amended_witness : wordWrap "   " 7 = [] :=
  (wordWrap_eq_greedy_amended "   " 7).2 (by decide)

/-- Loop invariant for claim C7: every line the `wordWrap` loop accumulates
either fits the width or is one of the input words. -/
theorem wordWrap_loop_bounded (L : Nat) (W : List String) :
    ∀ (ws : List String) (acc : List String × String), (∀ w ∈ ws, w ∈ W) →
      (∀ l ∈ acc.1, l.length ≤ L ∨ l ∈ W) → (acc.2.length ≤ L ∨ acc.2 ∈ W) →
      ∀ l ∈ (ws.foldl (wordWrapStep L) acc).1 ++ [(ws.foldl (wordWrapStep L) acc).2],
        l.length ≤ L ∨ l ∈ W := by
  intro ws
  induction ws with
  | nil =>
    intro acc _ h1 h2 l hl
    rcases List.mem_append.mp hl with hl | hl
    · exact h1 l hl
    · rw [List.mem_singleton.mp hl]; exact h2
  | cons w rest ih =>
    intro acc hmem h1 h2
    have hmem' : ∀ x ∈ rest, x ∈ W := fun x hx => hmem x (List.mem_cons_of_mem _ hx)
    have hwW : w ∈ W := hmem w (List.mem_cons_self _ _)
    rw [List.foldl_cons]
    by_cases hc : L < acc.2.length + w.length + 1
    · have hstep : wordWrapStep L acc w = (acc.1 ++ [acc.2], w) := by
        simp [wordWrapStep, hc]
      rw [hstep]
      refine ih _ hmem' ?_ (Or.inr hwW)
      intro l hl
      rcases List.mem_append.mp hl with hl | hl
      · exact h1 l hl
      · rw [List.mem_singleton.mp hl]; exact h2
    · by_cases hemp : acc.2 = ""
      · have hc' : ¬ L < w.length + 1 := by
          rw [hemp, length_empty_string] at hc
          omega
        have hstep : wordWrapStep L acc w = (acc.1, w) := by
          simp [wordWrapStep, hemp, hc']
        rw [hstep]
        exact ih _ hmem' h1 (Or.inr hwW)
      · have hstep : wordWrapStep L acc w = (acc.1, acc.2 ++ " " ++ w) := by
          simp [wordWrapStep, hc, hemp]
        rw [hstep]
        refine ih _ hmem' h1 (Or.inl ?_)
        rw [String.length_append, String.length_append, length_single_space]
        omega

/-- Claim C7: every line produced by `wordWrap` has length at most
`lineWidth`, except a line that is a single (over-long) input word. -/
theorem wordWrap_line_within_width (text : String) (L : Nat) (line : String)
    (h : line ∈ wordWrap text L) :
    line.length ≤ L ∨ (L < line.length ∧ line ∈ fields (trimSpace text.data)) := by
  rcases hf : fields (trimSpace text.data) with _ | ⟨w, ws⟩
  · rw [wordWrap, hf] at h
    simp at h
  · rw [wordWrap, hf] at h
    have hq := wordWrap_loop_bounded L (w :: ws) (w :: ws) ([], "")
      (fun x hx => hx) (by simp) (Or.inl (by rw [length_empty_string]; exact Nat.zero_le L))
      line h
    by_cases hL : line.length ≤ L
    · exact Or.inl hL
    · rcases hq with hq | hq
      · exact Or.inl hq
      · exact Or.inr ⟨by omega, hq⟩

/-- Claim C7, witness at text `"hello world"`, width 5, line `"hello"`. -/
theorem wordWrap_line_within_width_witness :
    ("hello" : String).length ≤ 5 ∨
      (5 < ("hello" : String).length ∧ "hello" ∈ fields (trimSpace "hello world".data)) :=
  wordWrap_line_within_width "hello world" 5 "hello" (by decide)

/-! ### List access helpers -/

theorem getD_set_self {α : Type} (l : List α) (i : Nat) (a d : α) (h : i < l.length) :
    (l.set i a).getD i d = a := by
  rw [List.getD_eq_getElem?_getD, List.getElem?_set_self h]
  rfl

theorem getD_set_ne {α : Type} (l : List α) (i j : Nat) (a d : α) (h : i ≠ j) :
    (l.set i a).getD j d = l.getD j d := by
  rw [List.getD_eq_getElem?_getD, List.getElem?_set_ne h, ← List.getD_eq_getElem?_getD]

theorem getD_replicate_nil (n j : Nat) :
    (List.replicate n ([] : List String)).getD j [] = [] := by
  rw [List.getD_eq_getElem?_getD, List.getElem?_replicate]
  by_cases h : j < n <;> simp [h]

/-! ### Packing helpers -/

theorem sumLines_nil : sumLines [] = 0 := rfl

theorem sumLines_cons (b : Block) (bs : List Block) :
    sumLines (b :: bs) = b.lines.length + sumLines bs := by
  simp [sumLines]

theorem le_minSpaceNeeded (blk : Block) (rest : List Block) :
    blk.lines.length ≤ minSpaceNeeded blk rest := by
  cases rest with
  | nil => simp [minSpaceNeeded]
  | cons next r =>
    simp only [minSpaceNeeded]
    split <;> omega

theorem minSpaceNeeded_le (blk : Block) (rest : List Block) :
    minSpaceNeeded blk rest ≤ blk.lines.length + sumLines rest := by
  cases rest with
  | nil => simp [minSpaceNeeded]
  | cons next r =>
    simp only [minSpaceNeeded, sumLines_cons]
    split <;> omega

theorem trimLead_length_le (ls : List String) : (trimLead ls).length ≤ ls.length := by
  cases ls with
  | nil => simp [trimLead]
  | cons l0 rest =>
    simp only [trimLead]
    split <;> simp

theorem blockJoin_nil : blockJoin [] = [] := rfl

theorem blockJoin_cons (b : Block) (bs : List Block) :
    blockJoin (b :: bs) = b.lines ++ blockJoin bs := by
  simp [blockJoin]

/-! ### Claim C3: a single column receives everything, in order -/

/-- The packing loop on one column never advances while the column's content
plus all remaining lines stay within the target height. -/
theorem packLoop_single (targetHeight : Nat) :
    ∀ (blocks : List Block) (c : List String),
      c.length + sumLines blocks ≤ targetHeight →
      packLoop targetHeight blocks [c] 0 = [c ++ blockJoin blocks] := by
  intro blocks
  induction blocks with
  | nil =>
    intro c _
    simp [packLoop, blockJoin_nil]
  | cons blk rest ih =>
    intro c hc
    rw [sumLines_cons] at hc
    have hms := minSpaceNeeded_le blk rest
    simp only [packLoop]
    rw [if_neg ?hcond]
    case hcond =>
      rintro ⟨-, hlt⟩
      have h0 : (([c] : List (List String)).getD 0 []) = c := rfl
      rw [h0] at hlt
      omega
    have h0 : (([c] : List (List String)).getD 0 []) = c := rfl
    have hset : ([c] : List (List String)).set 0 (([c] : List (List String)).getD 0 [] ++ blk.lines) =
        [c ++ blk.lines] := by rw [h0]; rfl
    rw [hset, ih (c ++ blk.lines) (by rw [List.length_append]; omega)]
    rw [blockJoin_cons, List.append_assoc]

/-- Claim C3: with `N = 1` column and the height the code computes,
every block lands in the single column, in the original order, nothing
dropped. -/
theorem pack_single_column_keeps_all (blocks : List Block) :
    packColumns (columnHeight (sumLines blocks) 1) 1 blocks = [blockJoin blocks] := by
  have h1 : columnHeight (sumLines blocks) 1 = sumLines blocks := by
    simp [columnHeight]
  unfold packColumns
  rw [h1, show List.replicate 1 ([] : List String) = [[]] from rfl]
  exact packLoop_single _ blocks [] (by simp)

/-! ### Claim C9: the advisory height is a hard bound without oversized blocks -/

/-- Invariant for the packing loop: if every block fits the target height on
its own, every column stays within the target height (columns beyond the
current one being still untouched and empty). -/
theorem packLoop_height_bound (targetHeight : Nat) :
    ∀ (blocks : List Block) (cols : List (List String)) (cur : Nat),
      (∀ b ∈ blocks, b.lines.length ≤ targetHeight) →
      (∀ j, (cols.getD j []).length ≤ targetHeight) →
      (∀ j, cur < j → cols.getD j [] = []) →
      ∀ j, ((packLoop targetHeight blocks cols cur).getD j []).length ≤ targetHeight := by
  intro blocks
  induction blocks with
  | nil =>
    intro cols cur _ h2 _ j
    simpa [packLoop] using h2 j
  | cons blk rest ih =>
    intro cols cur hb h2 h3 j
    have hb' : ∀ b ∈ rest, b.lines.length ≤ targetHeight :=
      fun b h => hb b (List.mem_cons_of_mem _ h)
    have hblk : blk.lines.length ≤ targetHeight := hb blk (List.mem_cons_self _ _)
    simp only [packLoop]
    by_cases hc : 0 < (cols.getD cur []).length ∧
        targetHeight < (cols.getD cur []).length + minSpaceNeeded blk rest
    · rw [if_pos hc]
      by_cases hlen : cols.length ≤ cur + 1
      · rw [if_pos hlen]
        exact h2 j
      · rw [if_neg hlen]
        apply ih _ _ hb' _ _ j
        · intro j'
          by_cases hj : j' = cur + 1
          · subst hj
            rw [getD_set_self _ _ _ _ (by omega)]
            rw [h3 (cur + 1) (by omega)]
            simpa using le_trans (trimLead_length_le blk.lines) hblk
          · rw [getD_set_ne _ _ _ _ _ (fun he => hj he.symm)]
            exact h2 j'
        · intro j' hj'
          rw [getD_set_ne _ _ _ _ _ (by omega)]
          exact h3 j' (by omega)
    · rw [if_neg hc]
      apply ih _ _ hb' _ _ j
      · intro j'
        by_cases hj : j' = cur
        · subst hj
          by_cases hcl : j' < cols.length
          · rw [getD_set_self _ _ _ _ hcl, List.length_append]
            have hms := le_minSpaceNeeded blk rest
            rcases Nat.eq_zero_or_pos (cols.getD j' []).length with h0 | h0
            · omega
            · have := fun h => hc ⟨h0, h⟩
              omega
          · rw [List.set_eq_of_length_le (by omega)]
            exact h2 j'
        · rw [getD_set_ne _ _ _ _ _ (fun he => hj he.symm)]
          exact h2 j'
      · intro j' hj'
        rw [getD_set_ne _ _ _ _ _ (by omega)]
        exact h3 j' hj'

/-- Claim C9: for `columnHeight = ceil(totalLines / N)`, if no single block
has more than `columnHeight` lines then every packed column's final height is
at most `columnHeight`. -/
theorem pack_columns_height_bound (blocks : List Block) (numCols : Nat) (_hN : 1 ≤ numCols)
    (hb : ∀ b ∈ blocks, b.lines.length ≤ columnHeight (sumLines blocks) numCols) :
    ∀ j, ((packColumns (columnHeight (sumLines blocks) numCols) numCols blocks).getD j []).length ≤
      columnHeight (sumLines blocks) numCols := by
  unfold packColumns
  apply packLoop_height_bound _ blocks _ 0 hb
  · intro j
    rw [getD_replicate_nil]
    exact Nat.zero_le _
  · intro j _
    exact getD_replicate_nil _ _

/-- Claim C9, witness: two one-line blocks over two columns, height 1. -/
theorem pack_columns_height_bound_witness :
    ((packColumns (columnHeight (sumLines [Block.mk ["a"] false 0, Block.mk ["b"] false 0]) 2) 2
        [Block.mk ["a"] false 0, Block.mk ["b"] false 0]).getD 0 []).length ≤
      columnHeight (sumLines [Block.mk ["a"] false 0, Block.mk ["b"] false 0]) 2 :=
  pack_columns_height_bound [Block.mk ["a"] false 0, Block.mk ["b"] false 0] 2
    (by decide) (by decide) 0

/-! ### Claim C1: the packer never splits a block -/

theorem trimmedJoin_cons (b : Block) (bs : List Block) :
    trimmedJoin (b :: bs) = trimLead b.lines ++ blockJoin bs := rfl

/-- Structure theorem for the packing loop: the block sequence splits into a
group appended (untrimmed) to the current column, successive groups each
filling one following column (their first block losing a leading blank
line), and a dropped suffix that is non-empty only when the columns are
exhausted.  Earlier columns are untouched and later columns stay empty. -/
theorem packLoop_partition (targetHeight : Nat) :
    ∀ (blocks : List Block) (cols : List (List String)) (cur : Nat),
      cur < cols.length →
      (∀ j, cur < j → cols.getD j [] = []) →
      ∃ (g0 : List Block) (gs : List (List Block)) (dropped : List Block),
        blocks = g0 ++ gs.flatten ++ dropped ∧
        cur + 1 + gs.length ≤ cols.length ∧
        (dropped ≠ [] → cur + 1 + gs.length = cols.length) ∧
        (∀ j, j < cur → (packLoop targetHeight blocks cols cur).getD j [] = cols.getD j []) ∧
        (packLoop targetHeight blocks cols cur).getD cur [] = cols.getD cur [] ++ blockJoin g0 ∧
        (∀ k, k < gs.length →
          (packLoop targetHeight blocks cols cur).getD (cur + 1 + k) [] =
            trimmedJoin (gs.getD k [])) ∧
        (∀ j, cur + gs.length < j → (packLoop targetHeight blocks cols cur).getD j [] = []) := by
  intro blocks
  induction blocks with
  | nil =>
    intro cols cur h1 h2
    refine ⟨[], [], [], by simp, by simp; omega, by simp, ?_, ?_, ?_, ?_⟩
    · intro j _
      rfl
    · simp [packLoop, blockJoin_nil]
    · intro k hk
      simp at hk
    · intro j hj
      simp at hj
      exact h2 j (by omega)
  | cons blk rest ih =>
    intro cols cur h1 h2
    by_cases hc : 0 < (cols.getD cur []).length ∧
        targetHeight < (cols.getD cur []).length + minSpaceNeeded blk rest
    · by_cases hlen : cols.length ≤ cur + 1
      · have hres : packLoop targetHeight (blk :: rest) cols cur = cols := by
          simp only [packLoop]
          rw [if_pos hc, if_pos hlen]
        refine ⟨[], [], blk :: rest, by simp, by simp; omega, by intro _; simp; omega,
          ?_, ?_, ?_, ?_⟩
        · intro j _
          rw [hres]
        · rw [hres, blockJoin_nil, List.append_nil]
        · intro k hk
          simp at hk
        · intro j hj
          simp at hj
          rw [hres]
          exact h2 j (by omega)
      · have hres : packLoop targetHeight (blk :: rest) cols cur =
            packLoop targetHeight rest
              (cols.set (cur + 1) ((cols.getD (cur + 1) []) ++ trimLead blk.lines)) (cur + 1) := by
          simp only [packLoop]
          rw [if_pos hc, if_neg hlen]
        have hget : (cols.set (cur + 1) ((cols.getD (cur + 1) []) ++ trimLead blk.lines)).getD
            (cur + 1) [] = trimLead blk.lines := by
          rw [getD_set_self _ _ _ _ (by omega), h2 (cur + 1) (by omega), List.nil_append]
        obtain ⟨g0', gs', dropped, hb, hlen2, hdrop, hlt, hcur', hks, hgt⟩ :=
          ih (cols.set (cur + 1) ((cols.getD (cur + 1) []) ++ trimLead blk.lines)) (cur + 1)
            (by rw [List.length_set]; omega)
            (fun j hj => by
              rw [getD_set_ne _ _ _ _ _ (by omega)]
              exact h2 j (by omega))
        rw [List.length_set] at hlen2 hdrop
        refine ⟨[], (blk :: g0') :: gs', dropped, by simp [hb], by simp; omega, ?_, ?_, ?_, ?_, ?_⟩
        · intro hd
          have := hdrop hd
          simp
          omega
        · intro j hj
          rw [hres, hlt j (by omega), getD_set_ne _ _ _ _ _ (by omega)]
        · rw [hres, hlt cur (by omega), getD_set_ne _ _ _ _ _ (by omega), blockJoin_nil,
            List.append_nil]
        · intro k hk
          cases k with
          | zero =>
            rw [hres, show cur + 1 + 0 = cur + 1 from rfl, hcur', hget, List.getD]
            rfl
          | succ k' =>
            rw [hres, show cur + 1 + (k' + 1) = cur + 1 + 1 + k' by omega,
              hks k' (by simpa using hk)]
            rfl
        · intro j hj
          rw [hres]
          exact hgt j (by simp at hj ⊢; omega)
    · have hres : packLoop targetHeight (blk :: rest) cols cur =
          packLoop targetHeight rest
            (cols.set cur ((cols.getD cur []) ++ blk.lines)) cur := by
        simp only [packLoop]
        rw [if_neg hc]
      obtain ⟨g0', gs, dropped, hb, hlen2, hdrop, hlt, hcur', hks, hgt⟩ :=
        ih (cols.set cur ((cols.getD cur []) ++ blk.lines)) cur
          (by rw [List.length_set]; omega)
          (fun j hj => by
            rw [getD_set_ne _ _ _ _ _ (by omega)]
            exact h2 j hj)
      rw [List.length_set] at hlen2 hdrop
      refine ⟨blk :: g0', gs, dropped, by simp [hb], hlen2, hdrop, ?_, ?_, ?_, ?_⟩
      · intro j hj
        rw [hres, hlt j hj, getD_set_ne _ _ _ _ _ (by omega)]
      · rw [hres, hcur', getD_set_self _ _ _ _ h1, blockJoin_cons, List.append_assoc]
      · intro k hk
        rw [hres]
        exact hks k hk
      · intro j hj
        rw [hres]
        exact hgt j hj

/-- Claim C1: for every block sequence, height target and column count
`N ≥ 1`, the packed columns are concatenations of whole consecutive blocks:
the sequence splits into at most `N` consecutive groups plus a dropped
suffix; column 0 holds exactly the lines of the first group, column `1 + k`
exactly the lines of group `k + 1` (whose first block loses a leading blank
line), later columns are empty, and blocks are dropped only when all `N`
columns have been used.  In particular no block's lines are ever spread
across two columns. -/
theorem pack_never_splits_blocks (blocks : List Block) (targetHeight numCols : Nat)
    (hN : 1 ≤ numCols) :
    ∃ (g0 : List Block) (gs : List (List Block)) (dropped : List Block),
      blocks = g0 ++ gs.flatten ++ dropped ∧
      1 + gs.length ≤ numCols ∧
      (dropped ≠ [] → 1 + gs.length = numCols) ∧
      (packColumns targetHeight numCols blocks).getD 0 [] = blockJoin g0 ∧
      (∀ k, k < gs.length →
        (packColumns targetHeight numCols blocks).getD (1 + k) [] = trimmedJoin (gs.getD k [])) ∧
      (∀ j, gs.length < j → (packColumns targetHeight numCols blocks).getD j [] = []) := by
  obtain ⟨g0, gs, dropped, hb, hlen, hdrop, _, hcur, hks, hgt⟩ :=
    packLoop_partition targetHeight blocks (List.replicate numCols []) 0
      (by rw [List.length_replicate]; omega) (fun j _ => getD_replicate_nil _ _)
  rw [List.length_replicate] at hlen hdrop
  refine ⟨g0, gs, dropped, hb, by omega, by intro hd; have := hdrop hd; omega, ?_, ?_, ?_⟩
  · rw [packColumns]
    rw [getD_replicate_nil, List.nil_append] at hcur
    exact hcur
  · intro k hk
    rw [packColumns]
    have := hks k hk
    rw [show (0 : Nat) + 1 + k = 1 + k by omega] at this
    exact this
  · intro j hj
    rw [packColumns]
    exact hgt j (by omega)

/-- Claim C1, witness: a single one-line block in one column. -/
theorem pack_never_splits_blocks_witness :
    ∃ (g0 : List Block) (gs : List (List Block)) (dropped : List Block),
      [Block.mk ["x"] false 0] = g0 ++ gs.flatten ++ dropped ∧
      1 + gs.length ≤ 1 ∧
      (dropped ≠ [] → 1 + gs.length = 1) ∧
      (packColumns 1 1 [Block.mk ["x"] false 0]).getD 0 [] = blockJoin g0 ∧
      (∀ k, k < gs.length →
        (packColumns 1 1 [Block.mk ["x"] false 0]).getD (1 + k) [] = trimmedJoin (gs.getD k [])) ∧
      (∀ j, gs.length < j → (packColumns 1 1 [Block.mk ["x"] false 0]).getD j [] = []) :=
  pack_never_splits_blocks [Block.mk ["x"] false 0] 1 1 (by decide)

/-! ### Claim C2: the header-orphan lookahead -/

/-- Concrete blocks refuting the absolute "never orphaned" reading: a large
block, then a header whose category's first entry follows it. -/
def cexBlocks : List Block :=
  [Block.mk ["a1", "a2", "a3", "a4", "a5", "a6", "a7", "a8", "a9", "a10"] false 0,
   Block.mk ["h1", "h2", "h3"] true 1,
   Block.mk ["e1", "e2", "e3", "e4", "e5", "e6", "e7"] false 1]

/-- Claim C2, counterexample: with three columns and the code's own
`columnHeight = ceil(20/3) = 7`, the header block (index 1, followed by an
entry of its category) is forced onto a fresh column and still ends up alone
as the entire content of column 1, while its category's first entry is
pushed to column 2 — despite the `minSpaceNeeded` lookahead. -/
theorem header_orphan_cex :
    sumLines cexBlocks = 20 ∧
    columnHeight (sumLines cexBlocks) 3 = 7 ∧
    (cexBlocks.getD 1 (Block.mk [] false 0)).isHeader = true ∧
    (cexBlocks.getD 2 (Block.mk [] false 0)).categoryId =
      (cexBlocks.getD 1 (Block.mk [] false 0)).categoryId ∧
    packColumns 7 3 cexBlocks =
      [["a1", "a2", "a3", "a4", "a5", "a6", "a7", "a8", "a9", "a10"],
       ["h1", "h2", "h3"],
       ["e1", "e2", "e3", "e4", "e5", "e6", "e7"]] := by
  decide

/-- Claim C2, amended: for a header block whose immediate successor has the
same category identifier, the packer's `minSpaceNeeded` is the header's line
count plus the successor's line count, and this advance test is what decides
whether to move on; consequently, whenever such a header is appended to a
column that already has content (the only case in which the advance test is
consulted at all), the following entry block is guaranteed to land in the
same column.  A header that starts a fresh (empty) column can still be
orphaned when header plus first entry exceed the target height. -/
theorem header_lookahead_minSpace (targetHeight : Nat) (blk next : Block) (rest : List Block)
    (cols : List (List String)) (cur : Nat)
    (hh : blk.isHeader = true) (hcat : next.categoryId = blk.categoryId) :
    minSpaceNeeded blk (next :: rest) = blk.lines.length + next.lines.length ∧
    (next.isHeader = false → 0 < (cols.getD cur []).length →
      (cols.getD cur []).length + blk.lines.length + next.lines.length ≤ targetHeight →
      packLoop targetHeight (blk :: next :: rest) cols cur =
        packLoop targetHeight rest
          (cols.set cur ((cols.getD cur []) ++ blk.lines ++ next.lines)) cur) := by
  have hms : minSpaceNeeded blk (next :: rest) = blk.lines.length + next.lines.length := by
    simp [minSpaceNeeded, hh, hcat]
  refine ⟨hms, ?_⟩
  intro hnh h0 hfit
  have hcur_lt : cur < cols.length := by
    by_contra hcl
    rw [List.getD_eq_default _ _ (by omega)] at h0
    simp at h0
  have hres1 : packLoop targetHeight (blk :: next :: rest) cols cur =
      packLoop targetHeight (next :: rest)
        (cols.set cur ((cols.getD cur []) ++ blk.lines)) cur := by
    simp only [packLoop]
    rw [if_neg ?hc1]
    case hc1 =>
      rintro ⟨-, hlt⟩
      rw [hms] at hlt
      omega
  have hget2 : (cols.set cur ((cols.getD cur []) ++ blk.lines)).getD cur [] =
      (cols.getD cur []) ++ blk.lines := getD_set_self _ _ _ _ hcur_lt
  have hms2 : minSpaceNeeded next rest = next.lines.length := by
    cases rest with
    | nil => simp [minSpaceNeeded]
    | cons r rs => simp [minSpaceNeeded, hnh]
  have hres2 : packLoop targetHeight (next :: rest)
      (cols.set cur ((cols.getD cur []) ++ blk.lines)) cur =
      packLoop targetHeight rest
        ((cols.set cur ((cols.getD cur []) ++ blk.lines)).set cur
          ((cols.getD cur []) ++ blk.lines ++ next.lines)) cur := by
    simp only [packLoop]
    rw [if_neg ?hc2, hget2]
    case hc2 =>
      rintro ⟨-, hlt⟩
      rw [hget2, hms2, List.length_append] at hlt
      omega
  rw [hres1, hres2, List.set_set]

/-- Claim C2, amended, witness: a one-line header with a one-line entry of
its category fits after existing content and both land in column 0. -/
theorem header_lookahead_minSpace_witness :
    minSpaceNeeded (Block.mk ["h"] true 0) [Block.mk ["e"] false 0] = 2 ∧
      packLoop 10 [Block.mk ["h"] true 0, Block.mk ["e"] false 0] [["x"]] 0 =
        packLoop 10 [] ([["x"]].set 0 (["x"] ++ ["h"] ++ ["e"])) 0 := by
  have h := header_lookahead_minSpace 10 (Block.mk ["h"] true 0) (Block.mk ["e"] false 0) []
    [["x"]] 0 rfl rfl
  exact ⟨h.1, h.2 rfl (by decide) (by decide)⟩

/-! ### Claim C5: number of display columns -/

theorem one_le_numDisplayColumns (w : Nat) : 1 ≤ numDisplayColumns w := by
  unfold numDisplayColumns
  by_cases h : w / fullColumnWidth = 0
  · simp [h]
  · simp only [h, if_false]
    simp only [fullColumnWidth, columnWidth, columnSpacing] at h ⊢
    omega

/-- Claim C5: the number of display columns is the terminal width divided by
the full column width 27 (25 + 2), floored, with minimum 1; width 80 yields
2 columns; and allocating that many columns always succeeds (the allocation
is modelled by `List.replicate`, which always yields a list of the requested
length, and the requested length is at least 1). -/
theorem numDisplayColumns_floor_min_one (w : Nat) :
    numDisplayColumns w = max 1 (w / fullColumnWidth) ∧
    1 ≤ numDisplayColumns w ∧
    numDisplayColumns 80 = 2 ∧
    (List.replicate (numDisplayColumns w) ([] : List String)).length = numDisplayColumns w := by
  refine ⟨?_, one_le_numDisplayColumns w, by decide, List.length_replicate _ _⟩
  unfold numDisplayColumns
  by_cases h : w / fullColumnWidth = 0
  · simp [h]
  · simp only [h, if_false]
    simp only [fullColumnWidth, columnWidth, columnSpacing] at h ⊢
    omega

/-! ### Claim C8: the renderer emits exactly the target number of rows -/

theorem renderLoop_eq_range' (cols : List (List String)) (numCols : Nat) :
    ∀ (d row : Nat), renderLoop cols numCols (row + d) row =
      concatStrings ((List.range' row d).map (renderRow cols numCols)) := by
  intro d
  induction d with
  | zero =>
    intro row
    rw [renderLoop]
    simp [concatStrings]
  | succ d ihd =>
    intro row
    rw [renderLoop, if_pos (by omega)]
    rw [show row + (d + 1) = (row + 1) + d by omega, ihd (row + 1)]
    rw [List.range'_succ]
    simp [concatStrings]

theorem renderLoop_from_zero (cols : List (List String)) (numCols targetHeight : Nat) :
    renderLoop cols numCols targetHeight 0 =
      concatStrings ((List.range targetHeight).map (renderRow cols numCols)) := by
  have h := renderLoop_eq_range' cols numCols targetHeight 0
  rw [Nat.zero_add] at h
  rw [h, List.range_eq_range']

theorem getD_map_take (cols : List (List String)) (hh col : Nat) :
    (cols.map (fun c => c.take hh)).getD col [] = (cols.getD col []).take hh := by
  rw [List.getD_eq_getElem?_getD, List.getD_eq_getElem?_getD, List.getElem?_map]
  cases cols[col]? with
  | none => simp
  | some c => rfl

theorem getD_take (l : List String) (hh row : Nat) (h : row < hh) :
    (l.take hh).getD row "" = l.getD row "" := by
  rw [List.getD_eq_getElem?_getD, List.getD_eq_getElem?_getD, List.getElem?_take, if_pos h]

theorem renderRow_take (cols : List (List String)) (numCols hh row : Nat) (h : row < hh) :
    renderRow (cols.map fun c => c.take hh) numCols row = renderRow cols numCols row := by
  unfold renderRow
  congr 2
  apply List.map_congr_left
  intro col _
  rw [getD_map_take, getD_take _ _ _ h]

/-- Claim C8: the renderer emits exactly `targetHeight` rows — row `r` being,
for each column index below `numCols`, the column's line at row `r` (empty
when the column is shorter) padded into a `columnWidth`-wide cell followed by
the inter-column spacing, the row ending with a newline (this is
`renderRow`'s definition) — and emits nothing beyond the final row: lines at
index `≥ targetHeight` never influence the output (truncating every column
to `targetHeight` lines leaves the output unchanged). -/
theorem renderer_exact_rows (cols : List (List String)) (numCols targetHeight : Nat) :
    renderLoop cols numCols targetHeight 0 =
      concatStrings ((List.range targetHeight).map (renderRow cols numCols)) ∧
    renderLoop cols numCols targetHeight 0 =
      renderLoop (cols.map fun c => c.take targetHeight) numCols targetHeight 0 := by
  refine ⟨renderLoop_from_zero cols numCols targetHeight, ?_⟩
  rw [renderLoop_from_zero, renderLoop_from_zero]
  congr 1
  apply List.map_congr_left
  intro row hrow
  exact (renderRow_take cols numCols targetHeight row (List.mem_range.mp hrow)).symm

/-! ### Claim C6: empty dataset -/

theorem length_newline : ("\n" : String).length = 1 := rfl

theorem sumLines_allBlocks_empty : sumLines (allBlocks []) = 23 := by decide

theorem renderLoop_ne_empty (cols : List (List String)) (numCols targetHeight : Nat)
    (h : 0 < targetHeight) : renderLoop cols numCols targetHeight 0 ≠ "" := by
  intro he
  have hstep : renderLoop cols numCols targetHeight 0 =
      renderRow cols numCols 0 ++ renderLoop cols numCols targetHeight 1 := by
    rw [renderLoop, if_pos h]
  rw [hstep] at he
  have hlen := congrArg String.length he
  rw [String.length_append, length_empty_string] at hlen
  unfold renderRow at hlen
  rw [String.length_append, length_newline] at hlen
  omega

theorem columnHeight_pos (total numCols : Nat) (ht : 1 ≤ total) (hn : 1 ≤ numCols) :
    0 < columnHeight total numCols := by
  unfold columnHeight
  rw [Nat.lt_iff_add_one_le, Nat.zero_add, Nat.one_le_div_iff (by omega)]
  omega

/-- For the empty dataset the display routine still renders (the category
headers are emitted unconditionally), so its output is never empty. -/
theorem displayEmpty_ne (w : Nat) : displayShortcutsInColumns [] w ≠ "" := by
  unfold displayShortcutsInColumns
  simp only
  rw [sumLines_allBlocks_empty, if_neg (by omega)]
  exact renderLoop_ne_empty _ _ _
    (columnHeight_pos _ _ (by omega) (one_le_numDisplayColumns w))

/-- Claim C6, counterexample: with the default width 80 the empty dataset
does not produce zero output — the header grid is printed. -/
theorem display_empty_not_silent : displayShortcutsInColumns [] 80 ≠ "" :=
  displayEmpty_ne 80

/-- Claim C6, amended: for an empty dataset the layout routine does not
abort, but neither does it print nothing: the six category header blocks are
emitted unconditionally (23 lines in total), so the output is a non-empty
header-only grid for every terminal width.  The `totalLines == 0` early
return that would give zero output is unreachable for any dataset. -/
theorem display_empty_dataset_headers (w : Nat) :
    displayShortcutsInColumns [] w ≠ "" ∧
      (allBlocks []).all Block.isHeader = true ∧
      sumLines (allBlocks []) = 23 :=
  ⟨displayEmpty_ne w, by decide, sumLines_allBlocks_empty⟩

/-! ### Claim C10: `main`'s key substitution -/

/-- Claim C10: the `main` transformation rewrites only the `Key` field —
descriptions and categories are untouched — replacing every occurrence of
"Prefix" by "ctrl+b"; concretely, the 32 displayed key combinations are the
stored ones with exactly this substitution (the two bare copy-mode keys
`v`, `y` are unchanged). -/
theorem main_replaces_keys_only :
    mainShortcuts.map Shortcut.Description = getStaticShortcuts.map Shortcut.Description ∧
    mainShortcuts.map Shortcut.Category = getStaticShortcuts.map Shortcut.Category ∧
    mainShortcuts.map Shortcut.Key =
      getStaticShortcuts.map (fun s => stringReplaceAll s.Key "Prefix" "ctrl+b") ∧
    mainShortcuts.map Shortcut.Key =
      ["ctrl+b d", "ctrl+b s", "ctrl+b $", "ctrl+b c", "ctrl+b ,", "ctrl+b w", "ctrl+b f",
       "ctrl+b &", "ctrl+b .", "ctrl+b p", "ctrl+b n", "ctrl+b 0-9", "ctrl+b l", "ctrl+b %",
       "ctrl+b \"", "ctrl+b o", "ctrl+b ;", "ctrl+b Arrow", "ctrl+b x", "ctrl+b \x7b",
       "ctrl+b \x7d", "ctrl+b Space", "ctrl+b z", "ctrl+b !", "ctrl+b q", "ctrl+b [", "v", "y",
       "ctrl+b ]", "ctrl+b t", "ctrl+b :", "ctrl+b ?"] := by
  refine ⟨by decide, by decide, by decide, by decide⟩

end TmuxShortcuts
